import Mathlib

/-!
Verification of the port-code resolution and normalization core of the
email-extractor repository (extract.py, schemas.py).

Python strings are modelled as `List Char` (ASCII-level: `str.upper`,
`str.strip`, `str.split` are embedded char-wise).  Python dicts are
modelled as association lists in key-insertion order, matching CPython's
ordered-dict semantics that the code's "first-seen" tie-breaking relies on.
-/

set_option maxHeartbeats 1000000

abbrev Str := List Char

/-- A string literal as a `List Char`. -/
def str (s : String) : Str := s.data

/-- Whitespace characters recognised by `str.strip` (ASCII model). -/
def isWs (c : Char) : Bool := c == ' ' || c == '\t' || c == '\n' || c == '\r'

/-- Lower-to-upper table modelling ASCII `str.upper` char-wise. -/
def upTable : List (Char × Char) :=
  [('a','A'), ('b','B'), ('c','C'), ('d','D'), ('e','E'), ('f','F'), ('g','G'),
   ('h','H'), ('i','I'), ('j','J'), ('k','K'), ('l','L'), ('m','M'), ('n','N'),
   ('o','O'), ('p','P'), ('q','Q'), ('r','R'), ('s','S'), ('t','T'), ('u','U'),
   ('v','V'), ('w','W'), ('x','X'), ('y','Y'), ('z','Z')]

/-- First-match lookup in an association list (Python dict read). -/
def alookup {α β : Type} [DecidableEq α] : List (α × β) → α → Option β
  | [], _ => none
  | (k, v) :: r, x => if x = k then some v else alookup r x

/-- Replace the value at the first occurrence of a key. -/
def aupdate {α β : Type} [DecidableEq α] : List (α × β) → α → β → List (α × β)
  | [], _, _ => []
  | (k, v) :: r, x, w => if x = k then (k, w) :: r else (k, v) :: aupdate r x w

/-- Model of `c.upper()` for a single char (identity outside lowercase ASCII letters). -/
def upChar (c : Char) : Char := (alookup upTable c).getD c

/-- Model of `s.upper()` (char-wise, ASCII). -/
def upperL (s : Str) : Str := s.map upChar

/-- Leading-whitespace strip. -/
def trimL (s : Str) : Str := s.dropWhile isWs

/-- Trailing-whitespace strip. -/
def trimR (s : Str) : Str := ((s.reverse).dropWhile isWs).reverse

/-- Model of `s.strip()`. -/
def trim (s : Str) : Str := trimR (trimL s)

/-- Model of `s.split(sep)` for a one-char separator; `"".split(sep) == [""]`. -/
def splitChar (sep : Char) : Str → List Str
  | [] => [[]]
  | c :: cs =>
    if c = sep then [] :: splitChar sep cs
    else
      match splitChar sep cs with
      | [] => [[c]]
      | h :: t => (c :: h) :: t

/-- Model of `sep.join(parts)` for a one-char separator. -/
def joinSep (sep : Char) : List Str → Str
  | [] => []
  | [p] => p
  | p :: ps => p ++ sep :: joinSep sep ps

/-- Model of `c.startswith(pre)` with the candidate string as second argument. -/
def startsWithL : Str → Str → Bool
  | [], _ => true
  | _ :: _, [] => false
  | a :: as, b :: bs => a == b && startsWithL as bs

/-- Python string `<=` (lexicographic by code point). -/
def leStr : Str → Str → Bool
  | [], _ => true
  | _ :: _, [] => false
  | a :: as, b :: bs =>
    if a.toNat < b.toNat then true
    else if b.toNat < a.toNat then false
    else leStr as bs

/-- Stable insertion used by the sort model. -/
def insertS (x : Str) : List Str → List Str
  | [] => [x]
  | y :: ys => if leStr x y then x :: y :: ys else y :: insertS x ys

/-- Model of `list.sort()` as stable insertion sort under `leStr`. -/
def sortL : List Str → List Str
  | [] => []
  | x :: xs => insertS x (sortL xs)

/-- The slash-split, stripped, uppercased, non-empty parts of a name:
`[p.strip().upper() for p in name.split("/") if p.strip()]`. -/
def pparts (s : Str) : List Str :=
  (splitChar '/' s).filterMap fun p =>
    let t := trim p
    if t = [] then none else some (upperL t)

/-- Function `normalize_port_name` from extract.py: split on '/', strip, uppercase,
sort alphabetically, rejoin with '|'. -/
def normalize_port_name (s : Str) : Str := joinSep '|' (sortL (pparts s))

/-! ## Reference index builder (`create_port_mapping`) -/

/-- One row of the reference table; `.get("code", "")` defaults are folded
into empty strings. -/
structure RefItem where
  code : Str
  name : Str
deriving DecidableEq

/-- The four dicts built by `create_port_mapping`. -/
structure PortMapping where
  name_to_code : List (Str × Str)
  normalized_to_code : List (Str × Str)
  name_to_all_codes : List (Str × List Str)
  normalized_to_all_codes : List (Str × List Str)

def emptyMapping : PortMapping := ⟨[], [], [], []⟩

/-- Model of `if k not in d: d[k] = v` on an insertion-ordered dict. -/
def setIfAbsent {β : Type} (m : List (Str × β)) (k : Str) (v : β) : List (Str × β) :=
  match alookup m k with
  | some _ => m
  | none => m ++ [(k, v)]

/-- Model of `d.setdefault(k, []); if c not in d[k]: d[k].append(c)`. -/
def addCode (m : List (Str × List Str)) (k : Str) (c : Str) : List (Str × List Str) :=
  match alookup m k with
  | none => m ++ [(k, [c])]
  | some l => if c ∈ l then m else aupdate m k (l ++ [c])

/-- The loop body of `create_port_mapping` for one reference row. -/
def cpmStep (st : PortMapping) (item : RefItem) : PortMapping :=
  let code := trim item.code
  let name := trim item.name
  if code = [] ∨ name = [] then st
  else
    let upperName := upperL name
    let normName := normalize_port_name name
    { name_to_code := setIfAbsent st.name_to_code upperName code
      normalized_to_code := setIfAbsent st.normalized_to_code normName code
      name_to_all_codes := addCode st.name_to_all_codes upperName code
      normalized_to_all_codes := addCode st.normalized_to_all_codes normName code }

/-- Function `create_port_mapping` from extract.py. -/
def create_port_mapping (data : List RefItem) : PortMapping :=
  data.foldl cpmStep emptyMapping

/-- Model of `d.get(k, [])`. -/
def getL (m : List (Str × List Str)) (k : Str) : List Str := (alookup m k).getD []

/-! ## Country-aware resolver (`find_port_code`) -/

/-- The selection step of `find_port_code` once the candidate list is known:
`if not codes: return None; if len(codes) == 1: return codes[0]; ...`.
`cp = none` is Python `None`; `cp = some []` is an empty string, which the
truthiness test `if country_prefix:` also treats as absent. -/
def selectCode (codes : List Str) (cp : Option Str) : Option Str :=
  if codes = [] then none
  else if codes.length = 1 then some (codes.headD [])
  else
    match cp with
    | some p =>
      if p = [] then some (codes.headD [])
      else
        let matching := codes.filter fun c => startsWithL (upperL p) c
        if matching = [] then some (codes.headD []) else some (matching.headD [])
    | none => some (codes.headD [])

/-- Function `find_port_code` from extract.py: exact lookup of the uppercased name,
falling back to the normalized lookup, then candidate selection. -/
def find_port_code (port_name : Str) (name_to_all_codes : List (Str × List Str))
    (normalized_to_all_codes : List (Str × List Str)) (cp : Option Str) : Option Str :=
  let upperName := upperL port_name
  let normalizedName := normalize_port_name port_name
  let codes0 := getL name_to_all_codes upperName
  let codes := if codes0 = [] then getL normalized_to_all_codes normalizedName else codes0
  selectCode codes cp

/-! ## Extraction records and the post-processor -/

inductive ProductLine where
  | importLcl
  | exportLcl
deriving DecidableEq

inductive Incoterm where
  | FOB | CIF | CFR | EXW | DDP | DAP | FCA | CPT | CIP | DPU
deriving DecidableEq

/-- The validated `ExtractionResult` pydantic model from schemas.py. -/
structure ExtractionResult where
  id : Str
  product_line : Option ProductLine := none
  origin_port_code : Option Str := none
  origin_port_name : Option Str := none
  destination_port_code : Option Str := none
  destination_port_name : Option Str := none
  incoterm : Option Incoterm := none
  cargo_weight_kg : Option Rat := none
  cargo_cbm : Option Rat := none
  is_dangerous : Bool := false
deriving DecidableEq

/-- Python truthiness of an optional string: `None` and `""` are falsy. -/
def truthy : Option Str → Bool
  | none => false
  | some s => !s.isEmpty

/-- Function `post_process_result` from extract.py.  The enum-member-to-string
comparisons `result.product_line == "pl_sea_import_lcl"` hold exactly when
the field is the corresponding enum member. -/
def post_process_result (result : ExtractionResult)
    (name_to_all_codes normalized_to_all_codes : List (Str × List Str)) : ExtractionResult :=
  let isImportToIndia := result.product_line = some ProductLine.importLcl
  let isExportFromIndia := result.product_line = some ProductLine.exportLcl
  let r1 :=
    if truthy result.origin_port_name then
      let originPref : Option Str := if isExportFromIndia then some (str "IN") else none
      let oc := find_port_code (result.origin_port_name.getD []) name_to_all_codes
        normalized_to_all_codes originPref
      { result with origin_port_code := oc }
    else { result with origin_port_code := none }
  if truthy r1.destination_port_name then
    let destPref : Option Str := if isImportToIndia then some (str "IN") else none
    let dc := find_port_code (r1.destination_port_name.getD []) name_to_all_codes
      normalized_to_all_codes destPref
    { r1 with destination_port_code := dc }
  else { r1 with destination_port_code := none }

/-! ## Character-level facts -/

theorem alookup_mem {α β : Type} [DecidableEq α] {m : List (α × β)} {k : α} {v : β}
    (h : alookup m k = some v) : (k, v) ∈ m := by
  induction m with
  | nil => simp [alookup] at h
  | cons p r ih =>
    obtain ⟨k', v'⟩ := p
    by_cases hk : k = k'
    · subst hk
      simp [alookup] at h
      simp [h]
    · simp [alookup, hk] at h
      exact List.mem_cons_of_mem _ (ih h)

theorem upTable_val_not_key :
    upTable.all (fun p => (alookup upTable p.2).isNone) = true := by decide

theorem upTable_not_ws :
    upTable.all (fun p => !(isWs p.1) && !(isWs p.2)) = true := by decide

theorem upTable_not_special :
    upTable.all (fun p => !(p.2 = '/' : Bool) && !(p.1 = '/' : Bool)) = true := by decide

theorem upChar_upChar (c : Char) : upChar (upChar c) = upChar c := by
  unfold upChar
  cases h : alookup upTable c with
  | none => simp [h]
  | some v =>
    have hm := alookup_mem h
    have := List.all_eq_true.mp upTable_val_not_key _ hm
    simp only [Option.isNone_iff_eq_none] at this
    simp [h, this]

theorem isWs_upChar (c : Char) : isWs (upChar c) = isWs c := by
  unfold upChar
  cases h : alookup upTable c with
  | none => simp
  | some v =>
    have hm := alookup_mem h
    have := List.all_eq_true.mp upTable_not_ws _ hm
    simp only [Bool.and_eq_true, Bool.not_eq_true'] at this
    simp [this.1, this.2]

theorem upChar_eq_slash_iff (c : Char) : upChar c = '/' ↔ c = '/' := by
  constructor
  · intro h
    unfold upChar at h
    cases hl : alookup upTable c with
    | none => simpa [hl] using h
    | some v =>
      have hm := alookup_mem hl
      have := List.all_eq_true.mp upTable_not_special _ hm
      simp only [Bool.and_eq_true, Bool.not_eq_true', decide_eq_false_iff_not] at this
      rw [hl] at h
      exact absurd h this.1
  · intro h
    subst h
    decide

theorem upperL_upperL (s : Str) : upperL (upperL s) = upperL s := by
  unfold upperL
  rw [List.map_map]
  exact List.map_congr_left fun a _ => upChar_upChar a

theorem upperL_eq_nil_iff (s : Str) : upperL s = [] ↔ s = [] := by
  simp [upperL]

theorem mem_upperL {c : Char} {s : Str} (h : c ∈ upperL s) : ∃ b ∈ s, c = upChar b := by
  obtain ⟨b, hb, rfl⟩ := List.mem_map.mp h
  exact ⟨b, hb, rfl⟩

/-! ## Strip, split and join lemmas -/

theorem dropWhile_sfx (p : Char → Bool) (l : Str) : ∃ t, t ++ l.dropWhile p = l := by
  induction l with
  | nil => exact ⟨[], rfl⟩
  | cons c cs ih =>
    by_cases h : p c
    · obtain ⟨t, ht⟩ := ih
      exact ⟨c :: t, by simp [List.dropWhile, h, ht]⟩
    · exact ⟨[], by simp [List.dropWhile, h]⟩

theorem head?_append_left {α : Type} (xs ys : List α) (h : xs ≠ []) :
    (xs ++ ys).head? = xs.head? := by
  cases xs with
  | nil => exact absurd rfl h
  | cons a l => rfl

theorem getLast?_append_right {α : Type} (xs ys : List α) (h : ys ≠ []) :
    (xs ++ ys).getLast? = ys.getLast? := by
  rw [← List.head?_reverse, ← List.head?_reverse, List.reverse_append]
  exact head?_append_left _ _ (by simpa using h)

theorem mem_trimL {c : Char} {s : Str} (h : c ∈ trimL s) : c ∈ s := by
  obtain ⟨t, ht⟩ := dropWhile_sfx isWs s
  rw [← ht]
  exact List.mem_append_right t h

theorem mem_trimR {c : Char} {s : Str} (h : c ∈ trimR s) : c ∈ s := by
  unfold trimR at h
  rw [List.mem_reverse] at h
  have := mem_trimL (s := s.reverse) h
  rwa [List.mem_reverse] at this

theorem mem_trim {c : Char} {s : Str} (h : c ∈ trim s) : c ∈ s :=
  mem_trimL (mem_trimR h)

theorem trimL_head_not_ws {s : Str} {c : Char} (h : (trimL s).head? = some c) :
    isWs c = false := by
  induction s with
  | nil => simp [trimL] at h
  | cons a l ih =>
    by_cases ha : isWs a
    · exact ih (by simpa [trimL, List.dropWhile, ha] using h)
    · simp [trimL, List.dropWhile, ha] at h
      subst h
      simpa using ha

theorem trimR_getLast_not_ws {s : Str} {c : Char} (h : (trimR s).getLast? = some c) :
    isWs c = false := by
  unfold trimR at h
  rw [List.getLast?_reverse] at h
  exact trimL_head_not_ws (s := s.reverse) h

theorem head?_trimR {s : Str} (h : trimR s ≠ []) : (trimR s).head? = s.head? := by
  obtain ⟨t, ht⟩ := dropWhile_sfx isWs s.reverse
  have hs : s = trimR s ++ t.reverse := by
    conv_lhs => rw [← List.reverse_reverse s, ← ht]
    simp [trimR]
  conv_rhs => rw [hs]
  rw [head?_append_left _ _ h]

theorem trim_head_not_ws {s : Str} {c : Char} (h : (trim s).head? = some c) :
    isWs c = false := by
  unfold trim at h
  have hne : trimR (trimL s) ≠ [] := by
    intro hnil
    rw [hnil] at h
    simp at h
  rw [head?_trimR hne] at h
  exact trimL_head_not_ws h

theorem trim_getLast_not_ws {s : Str} {c : Char} (h : (trim s).getLast? = some c) :
    isWs c = false := trimR_getLast_not_ws h

theorem trimL_eq_self {s : Str} (h : ∀ c, s.head? = some c → isWs c = false) :
    trimL s = s := by
  cases s with
  | nil => rfl
  | cons a l => simp [trimL, List.dropWhile, h a rfl]

theorem trimR_eq_self {s : Str} (h : ∀ c, s.getLast? = some c → isWs c = false) :
    trimR s = s := by
  show (trimL s.reverse).reverse = s
  rw [trimL_eq_self (s := s.reverse) (by intro c hc; exact h c (by rwa [List.head?_reverse] at hc))]
  exact List.reverse_reverse s

theorem trim_eq_self {s : Str} (hh : ∀ c, s.head? = some c → isWs c = false)
    (hl : ∀ c, s.getLast? = some c → isWs c = false) : trim s = s := by
  unfold trim
  rw [trimL_eq_self hh, trimR_eq_self hl]

theorem trimL_map_upChar (s : Str) : trimL (upperL s) = upperL (trimL s) := by
  induction s with
  | nil => rfl
  | cons a l ih =>
    by_cases ha : isWs a
    · have : isWs (upChar a) = true := by rw [isWs_upChar]; exact ha
      simp [upperL, trimL, List.dropWhile, this, ha] at ih ⊢
      exact ih
    · have : isWs (upChar a) = false := by rw [isWs_upChar]; exact eq_false_of_ne_true ha
      simp [upperL, trimL, List.dropWhile, this, ha]

theorem upperL_reverse (s : Str) : upperL s.reverse = (upperL s).reverse := by
  simp [upperL, List.map_reverse]

theorem trimR_map_upChar (s : Str) : trimR (upperL s) = upperL (trimR s) := by
  show (trimL (upperL s).reverse).reverse = upperL (trimL s.reverse).reverse
  rw [← upperL_reverse, trimL_map_upChar, upperL_reverse]

theorem trim_map_upChar (s : Str) : trim (upperL s) = upperL (trim s) := by
  unfold trim
  rw [trimL_map_upChar, trimR_map_upChar]

/-! ## Split, join and sort lemmas -/

theorem splitChar_ne_nil (sep : Char) (s : Str) : splitChar sep s ≠ [] := by
  cases s with
  | nil => simp [splitChar]
  | cons c cs =>
    by_cases h : c = sep
    · simp [splitChar, h]
    · simp only [splitChar, if_neg h]
      cases splitChar sep cs <;> simp

theorem mem_splitChar_not_sep {sep : Char} {s : Str} :
    ∀ p ∈ splitChar sep s, sep ∉ p := by
  induction s with
  | nil =>
    intro p hp
    simp [splitChar] at hp
    simp [hp]
  | cons c cs ih =>
    intro p hp
    by_cases h : c = sep
    · simp only [splitChar, if_pos h] at hp
      rcases List.mem_cons.mp hp with h1 | h1
      · simp [h1]
      · exact ih p h1
    · simp only [splitChar, if_neg h] at hp
      cases hsc : splitChar sep cs with
      | nil => exact absurd hsc (splitChar_ne_nil sep cs)
      | cons hd tl =>
        rw [hsc] at hp
        rcases List.mem_cons.mp hp with h1 | h1
        · subst h1
          intro hmem
          rcases List.mem_cons.mp hmem with h2 | h2
          · exact h h2.symm
          · exact ih hd (by rw [hsc]; exact List.mem_cons_self hd tl) h2
        · exact ih p (by rw [hsc]; exact List.mem_cons_of_mem hd h1)

theorem splitChar_of_not_mem {sep : Char} {s : Str} (h : sep ∉ s) :
    splitChar sep s = [s] := by
  induction s with
  | nil => rfl
  | cons c cs ih =>
    have hc : c ≠ sep := fun hc => h (by simp [hc])
    have hcs : sep ∉ cs := fun hm => h (List.mem_cons_of_mem c hm)
    simp only [splitChar, if_neg fun hcc => hc hcc, ih hcs]

theorem splitChar_map_upChar (s : Str) :
    splitChar '/' (upperL s) = (splitChar '/' s).map upperL := by
  induction s with
  | nil => rfl
  | cons c cs ih =>
    have hL : upperL (c :: cs) = upChar c :: upperL cs := rfl
    by_cases h : c = '/'
    · subst h
      have h2 : upChar '/' = '/' := by decide
      rw [hL, h2]
      simp only [splitChar, if_pos rfl, ih, List.map_cons]
      rfl
    · have h2 : ¬(upChar c = '/') := fun hu => h ((upChar_eq_slash_iff c).mp hu)
      cases hsc : splitChar '/' cs with
      | nil => exact absurd hsc (splitChar_ne_nil '/' cs)
      | cons hd tl =>
        have ihu : splitChar '/' (upperL cs) = upperL hd :: tl.map upperL := by
          rw [ih, hsc]
          rfl
        rw [hL]
        simp only [splitChar, if_neg h, if_neg h2, hsc, ihu, List.map_cons]
        rfl

theorem mem_insertS {x a : Str} {l : List Str} :
    a ∈ insertS x l ↔ a = x ∨ a ∈ l := by
  induction l with
  | nil => simp [insertS]
  | cons y ys ih =>
    unfold insertS
    by_cases h : leStr x y
    · simp [h]
    · simp only [if_neg h, List.mem_cons, ih]
      tauto

theorem mem_sortL {a : Str} {l : List Str} : a ∈ sortL l ↔ a ∈ l := by
  induction l with
  | nil => simp [sortL]
  | cons x xs ih => simp [sortL, mem_insertS, ih]

theorem mem_pparts {p : Str} {s : Str} (h : p ∈ pparts s) :
    ∃ q ∈ splitChar '/' s, trim q ≠ [] ∧ p = upperL (trim q) := by
  obtain ⟨q, hq, hfq⟩ := List.mem_filterMap.mp h
  by_cases ht : trim q = []
  · simp [ht] at hfq
  · refine ⟨q, hq, ht, ?_⟩
    simp [ht] at hfq
    exact hfq.symm

theorem pparts_upperL (s : Str) : pparts (upperL s) = pparts s := by
  unfold pparts
  rw [splitChar_map_upChar, List.filterMap_map]
  apply List.filterMap_congr
  intro q _
  simp only [Function.comp_apply, trim_map_upChar]
  by_cases h : trim q = []
  · simp [h, upperL]
  · have h2 : upperL (trim q) ≠ [] := fun hc => h ((upperL_eq_nil_iff _).mp hc)
    simp [h, h2, upperL_upperL]

theorem normalize_upperL (s : Str) :
    normalize_port_name (upperL s) = normalize_port_name s := by
  unfold normalize_port_name
  rw [pparts_upperL]

/-! ## Join lemmas and idempotence of the normalizer -/

theorem joinSep_ne_nil {sep : Char} {p0 : Str} (rest : List Str) (h : p0 ≠ []) :
    joinSep sep (p0 :: rest) ≠ [] := by
  cases rest with
  | nil => simpa [joinSep] using h
  | cons q r => simp [joinSep]

theorem head?_joinSep {sep : Char} {p0 : Str} (rest : List Str) (h : p0 ≠ []) :
    (joinSep sep (p0 :: rest)).head? = p0.head? := by
  cases rest with
  | nil => rfl
  | cons q r =>
    show (p0 ++ sep :: joinSep sep (q :: r)).head? = p0.head?
    exact head?_append_left _ _ h

theorem getLast?_joinSep {sep : Char} :
    ∀ (rest : List Str) (p0 : Str), (∀ p ∈ p0 :: rest, p ≠ []) →
      ∃ p ∈ p0 :: rest, (joinSep sep (p0 :: rest)).getLast? = p.getLast? := by
  intro rest
  induction rest with
  | nil => exact fun p0 _ => ⟨p0, List.mem_cons_self _ _, rfl⟩
  | cons q r ih =>
    intro p0 hne
    have hq : ∀ p ∈ q :: r, p ≠ [] := fun p hp => hne p (List.mem_cons_of_mem _ hp)
    obtain ⟨p, hp, hlast⟩ := ih q hq
    refine ⟨p, List.mem_cons_of_mem _ hp, ?_⟩
    show (p0 ++ sep :: joinSep sep (q :: r)).getLast? = p.getLast?
    rw [getLast?_append_right _ _ (by simp)]
    have hjn : joinSep sep (q :: r) ≠ [] := joinSep_ne_nil r (hne q (by simp))
    cases hj : joinSep sep (q :: r) with
    | nil => exact absurd hj hjn
    | cons a l =>
      rw [List.getLast?_cons_cons, ← hj, hlast]

theorem not_mem_joinSep {sep c : Char} (hc : c ≠ sep) :
    ∀ ps : List Str, (∀ p ∈ ps, c ∉ p) → c ∉ joinSep sep ps := by
  intro ps
  induction ps with
  | nil => simp [joinSep]
  | cons p rest ih =>
    intro h
    cases rest with
    | nil => simpa [joinSep] using h p (by simp)
    | cons q r =>
      show c ∉ p ++ sep :: joinSep sep (q :: r)
      intro hmem
      rcases List.mem_append.mp hmem with h1 | h1
      · exact h p (by simp) h1
      · rcases List.mem_cons.mp h1 with h2 | h2
        · exact hc h2
        · exact ih (fun x hx => h x (List.mem_cons_of_mem _ hx)) h2

theorem upperL_joinSep {sep : Char} (hsep : upChar sep = sep) :
    ∀ ps : List Str, (∀ p ∈ ps, upperL p = p) → upperL (joinSep sep ps) = joinSep sep ps := by
  intro ps
  induction ps with
  | nil => intro _; rfl
  | cons p rest ih =>
    intro h
    cases rest with
    | nil => simpa [joinSep] using h p (by simp)
    | cons q r =>
      show upperL (p ++ sep :: joinSep sep (q :: r)) = p ++ sep :: joinSep sep (q :: r)
      have h1 : upperL p = p := h p (by simp)
      have h2 : upperL (joinSep sep (q :: r)) = joinSep sep (q :: r) :=
        ih fun x hx => h x (List.mem_cons_of_mem _ hx)
      simp only [upperL] at h1 h2 ⊢
      simp [h1, h2, hsep]

theorem getLast?_upperL (s : Str) : (upperL s).getLast? = s.getLast?.map upChar := by
  rw [← List.head?_reverse, ← upperL_reverse, ← List.head?_reverse]
  exact List.head?_map upChar s.reverse

/-- The five facts needed about each surviving name-part. -/
theorem part_props {p s : Str} (hp : p ∈ pparts s) :
    p ≠ [] ∧ upperL p = p ∧ ('/' : Char) ∉ p ∧
      (∀ c, p.head? = some c → isWs c = false) ∧
      (∀ c, p.getLast? = some c → isWs c = false) := by
  obtain ⟨q, hq, hqt, rfl⟩ := mem_pparts hp
  refine ⟨fun hc => hqt ((upperL_eq_nil_iff _).mp hc), upperL_upperL _, ?_, ?_, ?_⟩
  · intro hmem
    obtain ⟨b, hb, hub⟩ := mem_upperL hmem
    have : b = '/' := (upChar_eq_slash_iff b).mp hub.symm
    subst this
    exact mem_splitChar_not_sep q hq (mem_trim hb)
  · intro c hc
    rw [show upperL (trim q) = (trim q).map upChar from rfl, List.head?_map] at hc
    cases hh : (trim q).head? with
    | none => simp [hh] at hc
    | some b =>
      rw [hh] at hc
      simp only [Option.map_some'] at hc
      rw [← Option.some_inj.mp hc, isWs_upChar]
      exact trim_head_not_ws hh
  · intro c hc
    rw [getLast?_upperL] at hc
    cases hh : (trim q).getLast? with
    | none => simp [hh] at hc
    | some b =>
      rw [hh] at hc
      simp only [Option.map_some'] at hc
      rw [← Option.some_inj.mp hc, isWs_upChar]
      exact trim_getLast_not_ws hh

/-- Idempotence of `normalize_port_name`. -/
theorem normalize_port_name_idem (s : Str) :
    normalize_port_name (normalize_port_name s) = normalize_port_name s := by
  cases hps : sortL (pparts s) with
  | nil =>
    have h0 : normalize_port_name s = [] := by
      unfold normalize_port_name
      rw [hps]
      rfl
    rw [h0]
    rfl
  | cons p0 rest =>
    have hy : normalize_port_name s = joinSep '|' (p0 :: rest) := by
      unfold normalize_port_name
      rw [hps]
    have hmem : ∀ p ∈ p0 :: rest, p ∈ pparts s := by
      intro p hp
      exact mem_sortL.mp (hps ▸ hp)
    have hprops := fun p hp => part_props (hmem p hp)
    have hp0 : p0 ≠ [] := (hprops p0 (by simp)).1
    set y := joinSep '|' (p0 :: rest) with hydef
    have hynil : y ≠ [] := joinSep_ne_nil rest hp0
    have hslash : ('/' : Char) ∉ y :=
      not_mem_joinSep (by decide) _ fun p hp => (hprops p hp).2.2.1
    have hupper : upperL y = y :=
      upperL_joinSep (by decide) _ fun p hp => (hprops p hp).2.1
    have hhead : ∀ c, y.head? = some c → isWs c = false := by
      intro c hc
      rw [head?_joinSep rest hp0] at hc
      exact (hprops p0 (by simp)).2.2.2.1 c hc
    have hlast : ∀ c, y.getLast? = some c → isWs c = false := by
      intro c hc
      obtain ⟨p, hp, hpl⟩ := getLast?_joinSep rest p0 fun p hp => (hprops p hp).1
      rw [hpl] at hc
      exact (hprops p hp).2.2.2.2 c hc
    have htrim : trim y = y := trim_eq_self hhead hlast
    have hpp : pparts y = [y] := by
      unfold pparts
      rw [splitChar_of_not_mem hslash]
      simp [htrim, hynil, hupper]
    rw [hy, show normalize_port_name y = joinSep '|' (sortL (pparts y)) from rfl, hpp]
    rfl

/-! ## Association-list lookup lemmas -/

theorem alookup_append {α β : Type} [DecidableEq α] (m m' : List (α × β)) (x : α) :
    alookup (m ++ m') x = match alookup m x with
      | some v => some v
      | none => alookup m' x := by
  induction m with
  | nil => simp [alookup]
  | cons p r ih =>
    obtain ⟨k, v⟩ := p
    by_cases hk : x = k
    · simp [alookup, hk]
    · simpa [alookup, hk] using ih

theorem alookup_aupdate {α β : Type} [DecidableEq α] (m : List (α × β)) (k x : α) (w : β) :
    alookup (aupdate m k w) x =
      if x = k then (alookup m k).map (fun _ => w) else alookup m x := by
  induction m with
  | nil => by_cases h : x = k <;> simp [aupdate, alookup, h]
  | cons p r ih =>
    obtain ⟨k', v'⟩ := p
    by_cases hkk : k = k' <;> by_cases hx : x = k' <;> by_cases hxx : x = k <;>
      simp_all [aupdate, alookup]

theorem alookup_setIfAbsent {β : Type} (m : List (Str × β)) (k x : Str) (v : β) :
    alookup (setIfAbsent m k v) x =
      if x = k then some ((alookup m k).getD v) else alookup m x := by
  unfold setIfAbsent
  cases hm : alookup m k with
  | some w =>
    by_cases hx : x = k
    · subst hx
      simp [hm]
    · simp [hx]
  | none =>
    rw [alookup_append]
    by_cases hx : x = k
    · subst hx
      simp [hm, alookup]
    · cases hx2 : alookup m x with
      | some w => simp [hx2, hx]
      | none => simp [hx2, hx, alookup]

theorem getL_addCode (m : List (Str × List Str)) (k0 c0 k : Str) :
    getL (addCode m k0 c0) k =
      if k = k0 then (if c0 ∈ getL m k0 then getL m k0 else getL m k0 ++ [c0])
      else getL m k := by
  unfold addCode
  cases hm : alookup m k0 with
  | none =>
    unfold getL
    rw [alookup_append]
    by_cases hx : k = k0
    · subst hx
      simp [hm, alookup]
    · cases hx2 : alookup m k with
      | some w => simp [hx2, hx]
      | none => simp [hx2, hx, alookup]
  | some l =>
    by_cases hc : c0 ∈ l
    · have : c0 ∈ getL m k0 := by simp [getL, hm, hc]
      by_cases hx : k = k0
      · subst hx
        simp [getL, hm, hc]
      · simp [hx, hc, this, getL]
    · have hg : getL m k0 = l := by simp [getL, hm]
      simp only [if_neg hc, getL, alookup_aupdate, hg]
      by_cases hx : k = k0
      · subst hx
        simp [hm, hc, hg]
      · simp [hx]

theorem mem_getL_addCode_self (m : List (Str × List Str)) (k0 c0 : Str) :
    c0 ∈ getL (addCode m k0 c0) k0 := by
  rw [getL_addCode]
  by_cases hc : c0 ∈ getL m k0 <;> simp [hc]

theorem mem_getL_addCode_mono {m : List (Str × List Str)} {k c : Str} (k0 c0 : Str)
    (h : c ∈ getL m k) : c ∈ getL (addCode m k0 c0) k := by
  rw [getL_addCode]
  by_cases hk : k = k0
  · subst hk
    by_cases hc : c0 ∈ getL m k <;> simp [hc, h]
  · simp [hk, h]

/-! ## C8: the normalizer is total and idempotent -/

/-- C8: `normalize_port_name` is a total pure function (in particular it maps
the empty string to the empty string) and is idempotent. -/
theorem c8_normalize_total_idempotent :
    normalize_port_name [] = [] ∧
      ∀ x : Str, normalize_port_name (normalize_port_name x) = normalize_port_name x :=
  ⟨rfl, normalize_port_name_idem⟩

/-! ## Builder-shape lemmas -/

theorem cpmStep_skip (st : PortMapping) (item : RefItem)
    (h : trim item.code = [] ∨ trim item.name = []) : cpmStep st item = st := by
  simp [cpmStep, h]

theorem cpmStep_go (st : PortMapping) (item : RefItem)
    (h : ¬(trim item.code = [] ∨ trim item.name = [])) :
    cpmStep st item =
      { name_to_code :=
          setIfAbsent st.name_to_code (upperL (trim item.name)) (trim item.code)
        normalized_to_code :=
          setIfAbsent st.normalized_to_code (normalize_port_name (trim item.name)) (trim item.code)
        name_to_all_codes :=
          addCode st.name_to_all_codes (upperL (trim item.name)) (trim item.code)
        normalized_to_all_codes :=
          addCode st.normalized_to_all_codes (normalize_port_name (trim item.name)) (trim item.code) } := by
  simp [cpmStep, h]

/-! ## C5: exact-index codes appear in the normalized index -/

theorem cpmStep_inv5 (st : PortMapping) (item : RefItem)
    (ih : ∀ k c, c ∈ getL st.name_to_all_codes k →
      c ∈ getL st.normalized_to_all_codes (normalize_port_name k)) :
    ∀ k c, c ∈ getL (cpmStep st item).name_to_all_codes k →
      c ∈ getL (cpmStep st item).normalized_to_all_codes (normalize_port_name k) := by
  intro k c hc
  by_cases hskip : trim item.code = [] ∨ trim item.name = []
  · rw [cpmStep_skip st item hskip] at hc ⊢
    exact ih k c hc
  · rw [cpmStep_go st item hskip] at hc ⊢
    simp only at hc ⊢
    rw [getL_addCode] at hc
    by_cases hk : k = upperL (trim item.name)
    · subst hk
      rw [if_pos rfl] at hc
      by_cases hcd : trim item.code ∈ getL st.name_to_all_codes (upperL (trim item.name))
      · rw [if_pos hcd] at hc
        exact mem_getL_addCode_mono _ _ (ih _ c hc)
      · rw [if_neg hcd] at hc
        rcases List.mem_append.mp hc with h1 | h1
        · exact mem_getL_addCode_mono _ _ (ih _ c h1)
        · have hcc : c = trim item.code := by simpa using h1
          subst hcc
          rw [normalize_upperL]
          exact mem_getL_addCode_self _ _ _
    · rw [if_neg hk] at hc
      exact mem_getL_addCode_mono _ _ (ih _ c hc)

theorem foldl_inv5 : ∀ (data : List RefItem) (st : PortMapping),
    (∀ k c, c ∈ getL st.name_to_all_codes k →
      c ∈ getL st.normalized_to_all_codes (normalize_port_name k)) →
    ∀ k c, c ∈ getL (data.foldl cpmStep st).name_to_all_codes k →
      c ∈ getL (data.foldl cpmStep st).normalized_to_all_codes (normalize_port_name k) := by
  intro data
  induction data with
  | nil => exact fun st h => h
  | cons item rest ih =>
    intro st h
    exact ih (cpmStep st item) (cpmStep_inv5 st item h)

/-- C5: every code registered in the exact-name index under a key `k` is also
registered in the normalized-name index under `normalize(k)`. -/
theorem c5_exact_in_normalized : ∀ (data : List RefItem) (k c : Str),
    c ∈ getL (create_port_mapping data).name_to_all_codes k →
    c ∈ getL (create_port_mapping data).normalized_to_all_codes (normalize_port_name k) := by
  intro data
  exact foldl_inv5 data emptyMapping (by
    intro k c hc
    simp [emptyMapping, getL, alookup] at hc)

/-- Witness for C5 at a concrete reference table. -/
theorem c5_witness :
    str "INMAA" ∈ getL (create_port_mapping [⟨str "INMAA", str "Chennai"⟩]).name_to_all_codes
      (str "CHENNAI") ∧
    str "INMAA" ∈ getL (create_port_mapping [⟨str "INMAA", str "Chennai"⟩]).normalized_to_all_codes
      (normalize_port_name (str "CHENNAI")) :=
  ⟨by decide, c5_exact_in_normalized [⟨str "INMAA", str "Chennai"⟩] (str "CHENNAI")
    (str "INMAA") (by decide)⟩

/-! ## C10: the resolver never invents a code -/

theorem headD_mem {l : List Str} (h : l ≠ []) : l.headD [] ∈ l := by
  cases l with
  | nil => exact absurd rfl h
  | cons a t => simp

theorem selectCode_mem {codes : List Str} {cp : Option Str} {c : Str}
    (h : selectCode codes cp = some c) : c ∈ codes := by
  unfold selectCode at h
  by_cases h0 : codes = []
  · simp [h0] at h
  · rw [if_neg h0] at h
    by_cases h1 : codes.length = 1
    · rw [if_pos h1] at h
      rw [← Option.some_inj.mp h]
      exact headD_mem h0
    · rw [if_neg h1] at h
      cases cp with
      | none =>
        rw [← Option.some_inj.mp h]
        exact headD_mem h0
      | some p =>
        by_cases hp : p = []
        · simp only [hp, if_pos rfl] at h
          rw [← Option.some_inj.mp h]
          exact headD_mem h0
        · simp only [if_neg hp] at h
          by_cases hm : codes.filter (fun x => startsWithL (upperL p) x) = []
          · simp only [hm, if_pos rfl] at h
            rw [← Option.some_inj.mp h]
            exact headD_mem h0
          · simp only [if_neg hm] at h
            rw [← Option.some_inj.mp h]
            exact List.mem_of_mem_filter (headD_mem hm)

/-- C10: a non-null resolver result always belongs to the candidate list the
indexes actually hold for that name: the exact entry for the uppercased name,
or, when that is absent or empty, the normalized entry. -/
theorem c10_result_in_candidates :
    ∀ (nm : Str) (na nna : List (Str × List Str)) (cp : Option Str) (c : Str),
      find_port_code nm na nna cp = some c →
      (if getL na (upperL nm) = [] then c ∈ getL nna (normalize_port_name nm)
       else c ∈ getL na (upperL nm)) := by
  intro nm na nna cp c h
  simp only [find_port_code] at h
  by_cases h0 : getL na (upperL nm) = []
  · rw [if_pos h0] at h ⊢
    exact selectCode_mem h
  · rw [if_neg h0] at h ⊢
    exact selectCode_mem h

/-- Witness for C10 at a concrete index. -/
theorem c10_witness :
    find_port_code (str "Chennai") [(str "CHENNAI", [str "INMAA", str "KRPUS"])] []
      (some (str "IN")) = some (str "INMAA") ∧
    (if getL [(str "CHENNAI", [str "INMAA", str "KRPUS"])] (upperL (str "Chennai")) = []
     then str "INMAA" ∈ getL [] (normalize_port_name (str "Chennai"))
     else str "INMAA" ∈ getL [(str "CHENNAI", [str "INMAA", str "KRPUS"])]
       (upperL (str "Chennai"))) :=
  ⟨by decide, c10_result_in_candidates (str "Chennai")
    [(str "CHENNAI", [str "INMAA", str "KRPUS"])] [] (some (str "IN")) (str "INMAA")
    (by decide)⟩

/-! ## C9: single-code maps agree with the head of the all-codes maps -/

theorem alookup_addCode (m : List (Str × List Str)) (k0 c0 : Str) (x : Str) :
    alookup (addCode m k0 c0) x =
      if x = k0 then
        some (match alookup m k0 with
          | none => [c0]
          | some l => if c0 ∈ l then l else l ++ [c0])
      else alookup m x := by
  cases hm : alookup m k0 with
  | none =>
    simp only [addCode, hm]
    rw [alookup_append]
    by_cases hx : x = k0
    · subst hx
      simp [hm, alookup]
    · cases hx2 : alookup m x <;> simp [hx2, hx, alookup]
  | some l =>
    simp only [addCode, hm]
    by_cases hc : c0 ∈ l
    · rw [if_pos hc, if_pos hc]
      by_cases hx : x = k0
      · subst hx
        simp [hm]
      · simp [hx]
    · rw [if_neg hc, if_neg hc, alookup_aupdate]
      by_cases hx : x = k0
      · subst hx
        simp [hm]
      · simp [hx]

/-- The relationship between a `name_to_code`-style dict and its
`name_to_all_codes` companion: same keys, the single code is the head of the
list, and the list is non-empty and duplicate-free. -/
def pairInv (single : List (Str × Str)) (all : List (Str × List Str)) : Prop :=
  (∀ k c, alookup single k = some c → ∃ l, alookup all k = some l ∧ l.head? = some c) ∧
  (∀ k l, alookup all k = some l →
    l ≠ [] ∧ l.Nodup ∧ ∃ c, alookup single k = some c ∧ l.head? = some c)

theorem pairInv_step {single : List (Str × Str)} {all : List (Str × List Str)}
    (k0 c0 : Str) (h : pairInv single all) :
    pairInv (setIfAbsent single k0 c0) (addCode all k0 c0) := by
  obtain ⟨h1, h2⟩ := h
  constructor
  · intro k c hc
    rw [alookup_setIfAbsent] at hc
    rw [alookup_addCode]
    by_cases hk : k = k0
    · subst hk
      rw [if_pos rfl] at hc ⊢
      cases hs : alookup single k with
      | some c1 =>
        rw [hs] at hc
        simp only [Option.getD_some, Option.some_inj] at hc
        subst hc
        obtain ⟨l, hl, hh⟩ := h1 k c1 hs
        have hlne : l ≠ [] := (h2 k l hl).1
        simp only [hl]
        by_cases hcin : c0 ∈ l
        · rw [if_pos hcin]
          exact ⟨l, rfl, hh⟩
        · rw [if_neg hcin]
          refine ⟨l ++ [c0], rfl, ?_⟩
          rw [head?_append_left _ _ hlne]
          exact hh
      | none =>
        rw [hs] at hc
        simp only [Option.getD_none, Option.some_inj] at hc
        subst hc
        cases ha : alookup all k with
        | some l =>
          obtain ⟨c', hc', _⟩ := (h2 k l ha).2.2
          rw [hs] at hc'
          exact absurd hc' (by simp)
        | none =>
          simp only [ha]
          exact ⟨[c0], rfl, rfl⟩
    · rw [if_neg hk] at hc ⊢
      exact h1 k c hc
  · intro k l hl
    rw [alookup_addCode] at hl
    rw [alookup_setIfAbsent]
    by_cases hk : k = k0
    · subst hk
      rw [if_pos rfl] at hl ⊢
      cases ha : alookup all k with
      | none =>
        simp only [ha, Option.some_inj] at hl
        subst hl
        have hs : alookup single k = none := by
          cases hs : alookup single k with
          | none => rfl
          | some c =>
            obtain ⟨l', hl', _⟩ := h1 k c hs
            rw [ha] at hl'
            exact absurd hl' (by simp)
        refine ⟨by simp, by simp, c0, ?_, rfl⟩
        rw [hs]
        rfl
      | some l1 =>
        simp only [ha, Option.some_inj] at hl
        obtain ⟨hne, hnd, c, hcs, hch⟩ := h2 k l1 ha
        rw [hcs]
        by_cases hcin : c0 ∈ l1
        · rw [if_pos hcin] at hl
          subst hl
          exact ⟨hne, hnd, c, rfl, hch⟩
        · rw [if_neg hcin] at hl
          subst hl
          refine ⟨by simp [hne], ?_, c, rfl, ?_⟩
          · rw [List.nodup_append]
            refine ⟨hnd, List.nodup_singleton _, ?_⟩
            intro a ha1 ha2
            simp only [List.mem_singleton] at ha2
            subst ha2
            exact hcin ha1
          · rw [head?_append_left _ _ hne]
            exact hch
    · rw [if_neg hk] at hl ⊢
      exact h2 k l hl

theorem foldl_inv9 : ∀ (data : List RefItem) (st : PortMapping),
    pairInv st.name_to_code st.name_to_all_codes →
    pairInv st.normalized_to_code st.normalized_to_all_codes →
    pairInv (data.foldl cpmStep st).name_to_code (data.foldl cpmStep st).name_to_all_codes ∧
    pairInv (data.foldl cpmStep st).normalized_to_code
      (data.foldl cpmStep st).normalized_to_all_codes := by
  intro data
  induction data with
  | nil => exact fun st h1 h2 => ⟨h1, h2⟩
  | cons item rest ih =>
    intro st h1 h2
    by_cases hskip : trim item.code = [] ∨ trim item.name = []
    · have heq : cpmStep st item = st := cpmStep_skip st item hskip
      simpa [List.foldl_cons, heq] using ih st h1 h2
    · have heq := cpmStep_go st item hskip
      refine ih (cpmStep st item) ?_ ?_
      · rw [heq]
        exact pairInv_step _ _ h1
      · rw [heq]
        exact pairInv_step _ _ h2

/-- C9: in the built `PortMapping`, the single-code dicts hold exactly the
first element of the corresponding all-codes lists, which are non-empty and
duplicate-free, with the same key sets. -/
theorem c9_single_is_head_of_all : ∀ data : List RefItem,
    pairInv (create_port_mapping data).name_to_code
      (create_port_mapping data).name_to_all_codes ∧
    pairInv (create_port_mapping data).normalized_to_code
      (create_port_mapping data).normalized_to_all_codes := by
  intro data
  refine foldl_inv9 data emptyMapping ?_ ?_ <;>
    exact ⟨fun k c hc => by simp [emptyMapping, alookup] at hc,
      fun k l hl => by simp [emptyMapping, alookup] at hl⟩

/-- Witness for C9 at a concrete reference table with a duplicated name. -/
theorem c9_witness :
    alookup (create_port_mapping [⟨str "INMAA", str "Chennai"⟩, ⟨str "KRPUS", str "Chennai"⟩]).name_to_code
      (str "CHENNAI") = some (str "INMAA") ∧
    (∃ l, alookup (create_port_mapping [⟨str "INMAA", str "Chennai"⟩, ⟨str "KRPUS", str "Chennai"⟩]).name_to_all_codes
      (str "CHENNAI") = some l ∧ l.head? = some (str "INMAA")) :=
  ⟨by decide,
    (c9_single_is_head_of_all [⟨str "INMAA", str "Chennai"⟩, ⟨str "KRPUS", str "Chennai"⟩]).1.1
      (str "CHENNAI") (str "INMAA") (by decide)⟩

/-! ## C2: how the exact-name index is keyed -/

theorem cpmStep_mem_mono (st : PortMapping) (item : RefItem) {k c : Str}
    (h : c ∈ getL st.name_to_all_codes k) :
    c ∈ getL (cpmStep st item).name_to_all_codes k := by
  by_cases hskip : trim item.code = [] ∨ trim item.name = []
  · rwa [cpmStep_skip st item hskip]
  · rw [cpmStep_go st item hskip]
    exact mem_getL_addCode_mono _ _ h

theorem foldl_mem_mono : ∀ (data : List RefItem) (st : PortMapping) (k c : Str),
    c ∈ getL st.name_to_all_codes k →
    c ∈ getL (data.foldl cpmStep st).name_to_all_codes k := by
  intro data
  induction data with
  | nil => exact fun st k c h => h
  | cons item rest ih =>
    exact fun st k c h => ih (cpmStep st item) k c (cpmStep_mem_mono st item h)

theorem foldl_registers : ∀ (data : List RefItem) (st : PortMapping) (item : RefItem),
    item ∈ data → trim item.code ≠ [] → trim item.name ≠ [] →
    trim item.code ∈ getL (data.foldl cpmStep st).name_to_all_codes (upperL (trim item.name)) := by
  intro data
  induction data with
  | nil => intro st item h; simp at h
  | cons hd tl ih =>
    intro st item hmem hcode hname
    rcases List.mem_cons.mp hmem with h1 | h1
    · subst h1
      have hgo : ¬(trim item.code = [] ∨ trim item.name = []) := by
        intro hor
        rcases hor with h2 | h2
        · exact hcode h2
        · exact hname h2
      apply foldl_mem_mono tl (cpmStep st item) _ _
      rw [cpmStep_go st item hgo]
      exact mem_getL_addCode_self _ _ _
    · exact ih (cpmStep st hd) item h1 hcode hname

/-- C2 as stated is false: the builder does NOT key the exact-name index by
the slash-split parts of the name, only by the full uppercased name (the
split keys go to the normalized index).  An entry named "A/B" is not
discoverable via exact lookup of the part "A". -/
theorem c2_counterexample :
    ¬ (∀ (data : List RefItem) (item : RefItem), item ∈ data →
        trim item.code ≠ [] → trim item.name ≠ [] →
        ∀ part ∈ pparts (trim item.name),
          trim item.code ∈ getL (create_port_mapping data).name_to_all_codes part) := by
  intro h
  have := h [⟨str "INMAA", str "A/B"⟩] ⟨str "INMAA", str "A/B"⟩ (by simp)
    (by decide) (by decide) (str "A") (by decide)
  exact absurd this (by decide)

/-- C2 amended: the builder registers each entry's code in the exact-name
index under the entry's FULL uppercased (trimmed) name, so every code
registered from an entry is discoverable by exact lookup of that full
uppercased name (the slash-split parts key only the normalized index). -/
theorem c2_amended : ∀ (data : List RefItem) (item : RefItem), item ∈ data →
    trim item.code ≠ [] → trim item.name ≠ [] →
    trim item.code ∈ getL (create_port_mapping data).name_to_all_codes (upperL (trim item.name)) := by
  intro data item hmem hcode hname
  exact foldl_registers data emptyMapping item hmem hcode hname

/-- Witness for amended C2 at a concrete table. -/
theorem c2_witness :
    trim (str "INMAA") ≠ [] ∧ trim (str "Chennai ICD / Bangalore") ≠ [] ∧
    trim (str "INMAA") ∈
      getL (create_port_mapping [⟨str "INMAA", str "Chennai ICD / Bangalore"⟩]).name_to_all_codes
        (upperL (trim (str "Chennai ICD / Bangalore"))) :=
  ⟨by decide, by decide,
    c2_amended [⟨str "INMAA", str "Chennai ICD / Bangalore"⟩]
      ⟨str "INMAA", str "Chennai ICD / Bangalore"⟩ (by simp) (by decide) (by decide)⟩

/-! ## C1: the resolver algorithm -/

/-- The resolution algorithm exactly as claim C1 words it: with multiple
candidates and a given country code, keep the candidates whose first two
characters equal the given code compared case-insensitively (both sides
case-folded), returning the first in insertion order. -/
def resolveClaimC1 (nm : Str) (na nna : List (Str × List Str)) (cp : Option Str) : Option Str :=
  let cands0 := getL na (upperL nm)
  let cands := if cands0 = [] then getL nna (normalize_port_name nm) else cands0
  if cands = [] then none
  else if cands.length = 1 then cands.head?
  else
    match cp with
    | some p =>
      match cands.filter (fun c => upperL (c.take 2) = upperL p) with
      | [] => cands.head?
      | m :: _ => some m
    | none => cands.head?

/-- C1 as stated is false: the code compares candidate codes case-SENSITIVELY
against the uppercased country code (`c.startswith(country_prefix.upper())`),
so a lowercase stored code that matches case-insensitively is skipped. -/
theorem c1_counterexample :
    ¬ (∀ (nm : Str) (na nna : List (Str × List Str)) (cp : Option Str),
        find_port_code nm na nna cp = resolveClaimC1 nm na nna cp) := by
  intro h
  have := h (str "Chennai") [(str "CHENNAI", [str "inmaa", str "INBLR"])] [] (some (str "IN"))
  exact absurd this (by decide)

/-- The resolution algorithm as amended: candidates that START WITH the
UPPERCASED given country code (codes compared as stored); a given-but-empty
country code is treated as absent. -/
def resolveAmendedC1 (nm : Str) (na nna : List (Str × List Str)) (cp : Option Str) : Option Str :=
  let cands0 := getL na (upperL nm)
  let cands := if cands0 = [] then getL nna (normalize_port_name nm) else cands0
  if cands = [] then none
  else if cands.length = 1 then cands.head?
  else
    match cp with
    | some p =>
      if p = [] then cands.head?
      else
        match cands.filter (fun c => startsWithL (upperL p) c) with
        | [] => cands.head?
        | m :: _ => some m
    | none => cands.head?

theorem head?_eq_headD {codes : List Str} (h : codes ≠ []) :
    some (codes.headD []) = codes.head? := by
  cases codes with
  | nil => exact absurd rfl h
  | cons a t => rfl

theorem selectCode_eq_claim (codes : List Str) (cp : Option Str) :
    selectCode codes cp =
      (if codes = [] then none
       else if codes.length = 1 then codes.head?
       else
         match cp with
         | some p =>
           if p = [] then codes.head?
           else
             match codes.filter (fun c => startsWithL (upperL p) c) with
             | [] => codes.head?
             | m :: _ => some m
         | none => codes.head?) := by
  by_cases h0 : codes = []
  · simp [selectCode, h0]
  · have hh := head?_eq_headD h0
    unfold selectCode
    rw [if_neg h0, if_neg h0]
    by_cases h1 : codes.length = 1
    · rw [if_pos h1, if_pos h1]
      exact hh
    · rw [if_neg h1, if_neg h1]
      cases cp with
      | none => exact hh
      | some p =>
        show (if p = [] then some (codes.headD [])
              else
                if codes.filter (fun c => startsWithL (upperL p) c) = []
                then some (codes.headD [])
                else some ((codes.filter fun c => startsWithL (upperL p) c).headD [])) =
             (if p = [] then codes.head?
              else
                match codes.filter (fun c => startsWithL (upperL p) c) with
                | [] => codes.head?
                | m :: _ => some m)
        by_cases hp : p = []
        · rw [if_pos hp, if_pos hp]
          exact hh
        · rw [if_neg hp, if_neg hp]
          cases hm : codes.filter (fun c => startsWithL (upperL p) c) with
          | nil => simpa using hh
          | cons m t => simp

/-- C1 amended: `find_port_code` follows exactly the claimed algorithm with
the preference filter corrected to `startswith(uppercased code)` on stored
codes, and an empty given country code treated as absent. -/
theorem c1_amended : ∀ (nm : Str) (na nna : List (Str × List Str)) (cp : Option Str),
    find_port_code nm na nna cp = resolveAmendedC1 nm na nna cp := by
  intro nm na nna cp
  exact selectCode_eq_claim _ cp

/-! ## Post-processor shape lemmas -/

theorem post_process_origin (r : ExtractionResult) (na nna : List (Str × List Str)) :
    (post_process_result r na nna).origin_port_code =
      if truthy r.origin_port_name
      then find_port_code (r.origin_port_name.getD []) na nna
        (if r.product_line = some ProductLine.exportLcl then some (str "IN") else none)
      else none := by
  unfold post_process_result
  by_cases ho : truthy r.origin_port_name <;>
    by_cases hd : truthy r.destination_port_name <;> simp [ho, hd]

theorem post_process_dest (r : ExtractionResult) (na nna : List (Str × List Str)) :
    (post_process_result r na nna).destination_port_code =
      if truthy r.destination_port_name
      then find_port_code (r.destination_port_name.getD []) na nna
        (if r.product_line = some ProductLine.importLcl then some (str "IN") else none)
      else none := by
  unfold post_process_result
  by_cases ho : truthy r.origin_port_name <;>
    by_cases hd : truthy r.destination_port_name <;> simp [ho, hd]

theorem post_process_frame (r : ExtractionResult) (na nna : List (Str × List Str)) :
    (post_process_result r na nna).id = r.id ∧
    (post_process_result r na nna).product_line = r.product_line ∧
    (post_process_result r na nna).origin_port_name = r.origin_port_name ∧
    (post_process_result r na nna).destination_port_name = r.destination_port_name ∧
    (post_process_result r na nna).incoterm = r.incoterm ∧
    (post_process_result r na nna).cargo_weight_kg = r.cargo_weight_kg ∧
    (post_process_result r na nna).cargo_cbm = r.cargo_cbm ∧
    (post_process_result r na nna).is_dangerous = r.is_dangerous := by
  unfold post_process_result
  by_cases ho : truthy r.origin_port_name <;>
    by_cases hd : truthy r.destination_port_name <;> simp [ho, hd]

theorem truthy_some_of_ne {s : Str} (h : s ≠ []) : truthy (some s) = true := by
  simp [truthy, h]

/-! ## C3: country preference derived from the product line -/

/-- An export-LCL record whose origin name is the non-null empty string. -/
def rC3 : ExtractionResult :=
  { id := str "e1", product_line := some ProductLine.exportLcl, origin_port_name := some [] }

/-- A normalized index in which the empty string is a key (such an index is
produced, e.g., by a reference entry whose name is "/"). -/
def nnaC3 : List (Str × List Str) := [([], [str "XXXXX"])]

/-- C3 as stated is false: `post_process_result` guards resolution by Python
truthiness, so a non-null but EMPTY port name is not resolved at all (the code
field is forced to null), even when the empty string is a key of the
normalized index. -/
theorem c3_counterexample :
    ¬ (∀ (r : ExtractionResult) (na nna : List (Str × List Str)),
        (∀ s, r.origin_port_name = some s →
          (post_process_result r na nna).origin_port_code =
            find_port_code s na nna
              (if r.product_line = some ProductLine.exportLcl then some (str "IN") else none)) ∧
        (∀ s, r.destination_port_name = some s →
          (post_process_result r na nna).destination_port_code =
            find_port_code s na nna
              (if r.product_line = some ProductLine.importLcl then some (str "IN") else none))) := by
  intro h
  have := (h rC3 [] nnaC3).1 [] rfl
  exact absurd this (by decide)

/-- C3 amended: for a non-null and NON-EMPTY origin name the post-processor
resolves with country code "IN" exactly when the product line is the
export-LCL value, and symmetrically the destination with the import-LCL
value; an empty name is treated as missing. -/
theorem c3_amended :
    ∀ (r : ExtractionResult) (na nna : List (Str × List Str)),
      (∀ s, r.origin_port_name = some s → s ≠ [] →
        (post_process_result r na nna).origin_port_code =
          find_port_code s na nna
            (if r.product_line = some ProductLine.exportLcl then some (str "IN") else none)) ∧
      (∀ s, r.destination_port_name = some s → s ≠ [] →
        (post_process_result r na nna).destination_port_code =
          find_port_code s na nna
            (if r.product_line = some ProductLine.importLcl then some (str "IN") else none)) := by
  intro r na nna
  constructor
  · intro s hs hne
    rw [post_process_origin, hs, truthy_some_of_ne hne]
    simp
  · intro s hs hne
    rw [post_process_dest, hs, truthy_some_of_ne hne]
    simp

/-- An export-LCL record naming "Chennai" on both ends. -/
def rC3w : ExtractionResult :=
  { id := str "e1", product_line := some ProductLine.exportLcl,
    origin_port_name := some (str "Chennai"),
    destination_port_name := some (str "Chennai") }

/-- An exact index on which "Chennai" has multiple codes, the Indian one
not first. -/
def naC3w : List (Str × List Str) := [(str "CHENNAI", [str "KRPUS", str "INMAA"])]

/-- Witness for amended C3: an export-LCL record prefers the "IN" code for
its origin, while the destination gets no preference. -/
theorem c3_witness :
    (post_process_result rC3w naC3w []).origin_port_code =
      find_port_code (str "Chennai") naC3w [] (some (str "IN")) ∧
    (post_process_result rC3w naC3w []).destination_port_code =
      find_port_code (str "Chennai") naC3w [] none := by
  have h := c3_amended rC3w naC3w []
  constructor
  · have := h.1 (str "Chennai") rfl (by decide)
    simpa using this
  · have := h.2 (str "Chennai") rfl (by decide)
    simpa using this

/-! ## C4: the post-processor recomputes exactly the two code fields -/

/-- A record with an upstream-supplied stale code and a non-null empty
origin name. -/
def rC4 : ExtractionResult :=
  { id := str "e2", origin_port_name := some [], origin_port_code := some (str "STALE") }

/-- A normalized index keyed by the empty string. -/
def nnaC4 : List (Str × List Str) := [([], [str "ZZZZZ"])]

/-- C4 as stated is false for the same truthiness reason as C3: with a
non-null but empty origin name and an index keyed by the empty normalized
name, the resolver would return a code but the post-processor nulls the
field instead of storing the resolver's result. -/
theorem c4_counterexample :
    ¬ (∀ (r : ExtractionResult) (na nna : List (Str × List Str)),
        ((post_process_result r na nna).id = r.id ∧
          (post_process_result r na nna).product_line = r.product_line ∧
          (post_process_result r na nna).origin_port_name = r.origin_port_name ∧
          (post_process_result r na nna).destination_port_name = r.destination_port_name ∧
          (post_process_result r na nna).incoterm = r.incoterm ∧
          (post_process_result r na nna).cargo_weight_kg = r.cargo_weight_kg ∧
          (post_process_result r na nna).cargo_cbm = r.cargo_cbm ∧
          (post_process_result r na nna).is_dangerous = r.is_dangerous) ∧
        (r.origin_port_name = none → (post_process_result r na nna).origin_port_code = none) ∧
        (∀ s, r.origin_port_name = some s →
          (post_process_result r na nna).origin_port_code =
            find_port_code s na nna
              (if r.product_line = some ProductLine.exportLcl then some (str "IN") else none)) ∧
        (r.destination_port_name = none →
          (post_process_result r na nna).destination_port_code = none) ∧
        (∀ s, r.destination_port_name = some s →
          (post_process_result r na nna).destination_port_code =
            find_port_code s na nna
              (if r.product_line = some ProductLine.importLcl then some (str "IN") else none))) := by
  intro h
  have := (h rC4 [] nnaC4).2.2.1 [] rfl
  exact absurd this (by decide)

/-- C4 amended: the post-processor changes only the two port-code fields,
recomputing both so no upstream value survives: a null OR EMPTY name forces
the code to null regardless of the prior value and of the indexes, and a
non-null non-empty name gets exactly the resolver's result. -/
theorem c4_amended :
    ∀ (r : ExtractionResult) (na nna : List (Str × List Str)),
      ((post_process_result r na nna).id = r.id ∧
        (post_process_result r na nna).product_line = r.product_line ∧
        (post_process_result r na nna).origin_port_name = r.origin_port_name ∧
        (post_process_result r na nna).destination_port_name = r.destination_port_name ∧
        (post_process_result r na nna).incoterm = r.incoterm ∧
        (post_process_result r na nna).cargo_weight_kg = r.cargo_weight_kg ∧
        (post_process_result r na nna).cargo_cbm = r.cargo_cbm ∧
        (post_process_result r na nna).is_dangerous = r.is_dangerous) ∧
      ((r.origin_port_name = none ∨ r.origin_port_name = some []) →
        (post_process_result r na nna).origin_port_code = none) ∧
      (∀ s, r.origin_port_name = some s → s ≠ [] →
        (post_process_result r na nna).origin_port_code =
          find_port_code s na nna
            (if r.product_line = some ProductLine.exportLcl then some (str "IN") else none)) ∧
      ((r.destination_port_name = none ∨ r.destination_port_name = some []) →
        (post_process_result r na nna).destination_port_code = none) ∧
      (∀ s, r.destination_port_name = some s → s ≠ [] →
        (post_process_result r na nna).destination_port_code =
          find_port_code s na nna
            (if r.product_line = some ProductLine.importLcl then some (str "IN") else none)) := by
  intro r na nna
  refine ⟨post_process_frame r na nna, ?_, (c3_amended r na nna).1, ?_, (c3_amended r na nna).2⟩
  · intro hn
    rw [post_process_origin]
    rcases hn with hn | hn <;> simp [hn, truthy]
  · intro hn
    rw [post_process_dest]
    rcases hn with hn | hn <;> simp [hn, truthy]

/-- An import-LCL record with a stale upstream origin code, a null origin
name, and a truthy destination name. -/
def rC4w : ExtractionResult :=
  { id := str "e3", product_line := some ProductLine.importLcl,
    origin_port_code := some (str "STALE"),
    destination_port_name := some (str "Chennai") }

/-- Witness for amended C4: the stale origin code is discarded (nulled), and
the destination code is exactly the resolver's result with the "IN"
preference. -/
theorem c4_witness :
    (post_process_result rC4w naC3w []).origin_port_code = none ∧
    (post_process_result rC4w naC3w []).destination_port_code =
      find_port_code (str "Chennai") naC3w [] (some (str "IN")) := by
  have h := c4_amended rC4w naC3w []
  exact ⟨h.2.1 (Or.inl rfl), h.2.2.2.2 (str "Chennai") rfl (by decide)⟩

/-! ## The extraction-record validator (schemas.py) -/

/-- A raw numeric JSON value for a float-typed field: either a number or a
string that must parse as a float. -/
inductive RawNum where
  | ofNum (q : Rat)
  | ofStr (s : Str)
deriving DecidableEq

/-- Digit value of a char, if it is an ASCII digit. -/
def digitVal (c : Char) : Option Nat :=
  if 48 ≤ c.toNat ∧ c.toNat ≤ 57 then some (c.toNat - 48) else none

def parseDigitsAux : Nat → Str → Option Nat
  | acc, [] => some acc
  | acc, c :: cs =>
    match digitVal c with
    | some d => parseDigitsAux (acc * 10 + d) cs
    | none => none

/-- A non-empty all-digit string as a natural number. -/
def parseDigits (l : Str) : Option Nat :=
  if l = [] then none else parseDigitsAux 0 l

/-- Decimal notation without sign: `d+`, `d+.d*`, `.d+` or `d+.d+`. -/
def parseUnsigned (l : Str) : Option Rat :=
  match splitChar '.' l with
  | [a] => (parseDigits a).map fun n => (n : Rat)
  | [a, b] =>
    if a = [] ∧ b = [] then none
    else
      match (if a = [] then some 0 else parseDigits a),
          (if b = [] then some (0 : Rat)
           else (parseDigits b).map fun n => (n : Rat) / (10 : Rat) ^ b.length) with
      | some ipart, some fpart => some ((ipart : Rat) + fpart)
      | _, _ => none
  | _ => none

/-- Modelled from the spec: the numeric coercion used by the validator for
float-typed fields (pydantic's `float` parsing, which is not part of this
repository).  A plain decimal parser: surrounding whitespace stripped,
optional sign, digits with an optional decimal point. -/
def parseFloat (s : Str) : Option Rat :=
  match trim s with
  | '+' :: r => parseUnsigned r
  | '-' :: r => (parseUnsigned r).map Neg.neg
  | r => parseUnsigned r

/-- The value a float-typed field accepts: numbers as-is, strings through
`parseFloat`. -/
def coerceFloat : RawNum → Option Rat
  | .ofNum q => some q
  | .ofStr s => parseFloat s

/-- The raw key-value mapping arriving at the validator, at the granularity
of the declared `ExtractionResult` schema: absent and null optional fields
are identified, string fields carry strings, numeric fields carry `RawNum`. -/
structure RawRecord where
  id : Option Str := none
  product_line : Option Str := none
  origin_port_code : Option Str := none
  origin_port_name : Option Str := none
  destination_port_code : Option Str := none
  destination_port_name : Option Str := none
  incoterm : Option Str := none
  cargo_weight_kg : Option RawNum := none
  cargo_cbm : Option RawNum := none
  is_dangerous : Option Bool := none
deriving DecidableEq

/-- The `ProductLine` closed enum match (exact, no case folding). -/
def parseProductLine (s : Str) : Option ProductLine :=
  if s = str "pl_sea_import_lcl" then some ProductLine.importLcl
  else if s = str "pl_sea_export_lcl" then some ProductLine.exportLcl
  else none

/-- The `Incoterm` closed enum match (exact). -/
def parseIncoterm (s : Str) : Option Incoterm :=
  if s = str "FOB" then some Incoterm.FOB
  else if s = str "CIF" then some Incoterm.CIF
  else if s = str "CFR" then some Incoterm.CFR
  else if s = str "EXW" then some Incoterm.EXW
  else if s = str "DDP" then some Incoterm.DDP
  else if s = str "DAP" then some Incoterm.DAP
  else if s = str "FCA" then some Incoterm.FCA
  else if s = str "CPT" then some Incoterm.CPT
  else if s = str "CIP" then some Incoterm.CIP
  else if s = str "DPU" then some Incoterm.DPU
  else none

/-- The `normalize_incoterm` before-validator from schemas.py:
`if v: return v.upper(); return v`. -/
def normInco (v : Str) : Str := if v ≠ [] then upperL v else v

/-- Validation of an optional field: absent passes as `none`, present values
must parse. -/
def optStep {α β : Type} (f : α → Option β) : Option α → Option (Option β)
  | none => some none
  | some x => (f x).map some

/-- The `ExtractionResult` pydantic validator from schemas.py, modelled field
by field: required `id`, closed enums for `product_line` and `incoterm`
(the latter case-normalized first), float coercion for the cargo fields,
`is_dangerous` defaulting to false, pass-through for the port strings.
Returns `none` on a schema error. -/
def validate (r : RawRecord) : Option ExtractionResult :=
  match r.id with
  | none => none
  | some i =>
    match optStep parseProductLine r.product_line with
    | none => none
    | some pl =>
      match optStep (fun v => parseIncoterm (normInco v)) r.incoterm with
      | none => none
      | some inc =>
        match optStep coerceFloat r.cargo_weight_kg with
        | none => none
        | some w =>
          match optStep coerceFloat r.cargo_cbm with
          | none => none
          | some cb =>
            some { id := i, product_line := pl,
                   origin_port_code := r.origin_port_code,
                   origin_port_name := r.origin_port_name,
                   destination_port_code := r.destination_port_code,
                   destination_port_name := r.destination_port_name,
                   incoterm := inc, cargo_weight_kg := w, cargo_cbm := cb,
                   is_dangerous := r.is_dangerous.getD false }

/-! ## C6: when validation fails -/

theorem optStep_eq_none {α β : Type} (f : α → Option β) (o : Option α) :
    optStep f o = none ↔ ∃ x, o = some x ∧ f x = none := by
  cases o <;> simp [optStep]

theorem validate_eq_none_iff (r : RawRecord) :
    validate r = none ↔
      (r.id = none ∨
        optStep parseProductLine r.product_line = none ∨
        optStep (fun v => parseIncoterm (normInco v)) r.incoterm = none ∨
        optStep coerceFloat r.cargo_weight_kg = none ∨
        optStep coerceFloat r.cargo_cbm = none) := by
  unfold validate
  cases h1 : r.id <;>
    cases h2 : optStep parseProductLine r.product_line <;>
    cases h3 : optStep (fun v => parseIncoterm (normInco v)) r.incoterm <;>
    cases h4 : optStep coerceFloat r.cargo_weight_kg <;>
    cases h5 : optStep coerceFloat r.cargo_cbm <;>
    simp

/-- A raw record with a lowercase incoterm. -/
def rawFob : RawRecord := { id := some (str "a1"), incoterm := some (str "fob") }

/-- What the validator makes of it: the incoterm is case-normalized to FOB,
`is_dangerous` defaults to false, all optional fields default to null. -/
def resFob : ExtractionResult := { id := str "a1", incoterm := some Incoterm.FOB }

/-- A raw record missing the required `id`. -/
def rawNoId : RawRecord := { incoterm := some (str "FOB") }

/-- C6: validation fails exactly when `id` is missing, an enum-valued field
holds a value outside its closed set (the incoterm value being uppercased
before enum matching), or a numeric field does not coerce to a float; and
the raw incoterm "fob" validates successfully to `FOB` while a record
missing `id` is rejected. -/
theorem c6_validator_errors :
    (∀ r : RawRecord, validate r = none ↔
      (r.id = none ∨
        (∃ s, r.product_line = some s ∧ parseProductLine s = none) ∨
        (∃ v, r.incoterm = some v ∧ parseIncoterm (normInco v) = none) ∨
        (∃ n, r.cargo_weight_kg = some n ∧ coerceFloat n = none) ∨
        (∃ n, r.cargo_cbm = some n ∧ coerceFloat n = none))) ∧
    validate rawFob = some resFob ∧ validate rawNoId = none := by
  refine ⟨?_, by decide, by decide⟩
  intro r
  rw [validate_eq_none_iff]
  simp only [optStep_eq_none]

/-! ## The per-email pipeline (`process_email` and the `main` batch loop) -/

/-- One attempt's upstream outcome: a transient failure (`RateLimitError` /
`APITimeoutError`), a response body that is not valid JSON
(`json.JSONDecodeError`), or a parsed JSON object. -/
inductive Outcome where
  | rateLimit
  | timeout
  | badJson
  | response (raw : RawRecord)

def isTransient : Outcome → Bool
  | .rateLimit => true
  | .timeout => true
  | _ => false

/-- The retry loop of `process_email`: `remaining` attempts left, `attempt`
the 0-based index of the current one.  Returns the record result, the number
of upstream calls made, and the list of backoff sleeps performed
(`base_delay * 2 ** attempt` with `base_delay = 2`). -/
def peAux (emailId : Option Str) (na nna : List (Str × List Str)) (outs : Nat → Outcome) :
    Nat → Nat → Option ExtractionResult × Nat × List Nat
  | 0, _ => (none, 0, [])
  | remaining + 1, attempt =>
    match outs attempt with
    | .rateLimit =>
      let rest := peAux emailId na nna outs remaining (attempt + 1)
      (rest.1, rest.2.1 + 1, (2 * 2 ^ attempt) :: rest.2.2)
    | .timeout =>
      let rest := peAux emailId na nna outs remaining (attempt + 1)
      (rest.1, rest.2.1 + 1, (2 * 2 ^ attempt) :: rest.2.2)
    | .badJson => (none, 1, [])
    | .response raw =>
      match validate { raw with id := emailId } with
      | none => (none, 1, [])
      | some er => (some (post_process_result er na nna), 1, [])

/-- Function `process_email` from extract.py: at most `retries = 3` attempts, the
email's id injected into the parsed body before validation, validation and
post-processing on success; `None` on any failure. -/
def process_email (emailId : Option Str) (na nna : List (Str × List Str))
    (outs : Nat → Outcome) : Option ExtractionResult × Nat × List Nat :=
  peAux emailId na nna outs 3 0

/-- The serialized output shape (`model_dump()` of a result, or the literal
fallback dict of `main`). -/
structure OutputRecord where
  id : Option Str
  product_line : Option ProductLine
  origin_port_code : Option Str
  origin_port_name : Option Str
  destination_port_code : Option Str
  destination_port_name : Option Str
  incoterm : Option Incoterm
  cargo_weight_kg : Option Rat
  cargo_cbm : Option Rat
  is_dangerous : Bool
deriving DecidableEq

def dumpER (r : ExtractionResult) : OutputRecord :=
  ⟨some r.id, r.product_line, r.origin_port_code, r.origin_port_name,
    r.destination_port_code, r.destination_port_name, r.incoterm,
    r.cargo_weight_kg, r.cargo_cbm, r.is_dangerous⟩

/-- The fallback record of `main`: id preserved, nulls elsewhere,
`is_dangerous` false. -/
def placeholderRec (emailId : Option Str) : OutputRecord :=
  ⟨emailId, none, none, none, none, none, none, none, none, false⟩

/-- The batch loop of `main`: one result per email, in order, substituting
the placeholder when `process_email` failed. -/
def mainLoop (na nna : List (Str × List Str)) :
    List (Option Str × (Nat → Outcome)) → List OutputRecord :=
  fun emails =>
    emails.map fun e =>
      match (process_email e.1 na nna e.2).1 with
      | some r => dumpER r
      | none => placeholderRec e.1

/-- How many of the (at most three) attempts hit a transient failure before
the first terminal outcome. -/
def leadingTransient (outs : Nat → Outcome) : Nat :=
  if isTransient (outs 0) then
    if isTransient (outs 1) then
      if isTransient (outs 2) then 3 else 2
    else 1
  else 0

/-- What one terminal (non-transient) outcome produces. -/
def terminalResult (emailId : Option Str) (na nna : List (Str × List Str)) :
    Outcome → Option ExtractionResult
  | .badJson => none
  | .rateLimit => none
  | .timeout => none
  | .response raw =>
    match validate { raw with id := emailId } with
    | none => none
    | some er => some (post_process_result er na nna)

theorem peAux_transient (emailId : Option Str) (na nna : List (Str × List Str))
    (outs : Nat → Outcome) (r attempt : Nat) (h : isTransient (outs attempt) = true) :
    peAux emailId na nna outs (r + 1) attempt =
      ((peAux emailId na nna outs r (attempt + 1)).1,
       (peAux emailId na nna outs r (attempt + 1)).2.1 + 1,
       (2 * 2 ^ attempt) :: (peAux emailId na nna outs r (attempt + 1)).2.2) := by
  cases ho : outs attempt with
  | rateLimit => simp [peAux, ho]
  | timeout => simp [peAux, ho]
  | badJson => simp [isTransient, ho] at h
  | response raw => simp [isTransient, ho] at h

theorem peAux_terminal (emailId : Option Str) (na nna : List (Str × List Str))
    (outs : Nat → Outcome) (r attempt : Nat) (h : isTransient (outs attempt) = false) :
    peAux emailId na nna outs (r + 1) attempt =
      (terminalResult emailId na nna (outs attempt), 1, []) := by
  cases ho : outs attempt with
  | rateLimit => simp [isTransient, ho] at h
  | timeout => simp [isTransient, ho] at h
  | badJson => simp [peAux, ho, terminalResult]
  | response raw =>
    cases hv : validate { raw with id := emailId } <;>
      simp [peAux, ho, terminalResult, hv]

theorem process_email_eq (emailId : Option Str) (na nna : List (Str × List Str))
    (outs : Nat → Outcome) :
    process_email emailId na nna outs =
      (if leadingTransient outs = 3 then none
       else terminalResult emailId na nna (outs (leadingTransient outs)),
       min (leadingTransient outs + 1) 3,
       (List.range (leadingTransient outs)).map fun i => 2 * 2 ^ i) := by
  unfold process_email
  by_cases t0 : isTransient (outs 0) = true
  · by_cases t1 : isTransient (outs 1) = true
    · by_cases t2 : isTransient (outs 2) = true
      · rw [peAux_transient _ _ _ _ _ _ t0, peAux_transient _ _ _ _ _ _ t1,
          peAux_transient _ _ _ _ _ _ t2]
        simp [leadingTransient, t0, t1, t2, peAux, List.range_succ]
      · rw [peAux_transient _ _ _ _ _ _ t0, peAux_transient _ _ _ _ _ _ t1,
          peAux_terminal _ _ _ _ _ _ (by simpa using t2)]
        simp [leadingTransient, t0, t1, t2, List.range_succ]
    · rw [peAux_transient _ _ _ _ _ _ t0,
        peAux_terminal _ _ _ _ _ _ (by simpa using t1)]
      simp [leadingTransient, t0, t1, List.range_succ]
  · rw [peAux_terminal _ _ _ _ _ _ (by simpa using t0)]
    simp [leadingTransient, t0, List.range_succ]

/-- C7: per-record processing makes at most 3 upstream attempts; the backoff
sleeps are exactly `2 * 2 ^ i` for the successive transient attempts (so the
delay doubles each time) and only transient outcomes are retried: the first
non-transient outcome ends the loop at attempt `leadingTransient outs`, with
a malformed body or a validation failure producing no result immediately;
any failed record yields the placeholder with the email's id preserved and
all extracted fields null, and the batch continues with the remaining
emails, one output per input. -/
theorem c7_retry_and_placeholder :
    ∀ (na nna : List (Str × List Str)) (emailId : Option Str) (outs : Nat → Outcome),
      (process_email emailId na nna outs).2.1 ≤ 3 ∧
      (process_email emailId na nna outs).2.1 = min (leadingTransient outs + 1) 3 ∧
      (process_email emailId na nna outs).2.2 =
        (List.range (leadingTransient outs)).map (fun i => 2 * 2 ^ i) ∧
      (leadingTransient outs < 3 →
        (outs (leadingTransient outs) = Outcome.badJson →
          (process_email emailId na nna outs).1 = none) ∧
        (∀ raw, outs (leadingTransient outs) = Outcome.response raw →
          (validate { raw with id := emailId } = none →
            (process_email emailId na nna outs).1 = none) ∧
          (∀ er, validate { raw with id := emailId } = some er →
            (process_email emailId na nna outs).1 =
              some (post_process_result er na nna)))) ∧
      (leadingTransient outs = 3 → (process_email emailId na nna outs).1 = none) ∧
      (∀ rest : List (Option Str × (Nat → Outcome)),
        (process_email emailId na nna outs).1 = none →
          mainLoop na nna ((emailId, outs) :: rest) =
            placeholderRec emailId :: mainLoop na nna rest) ∧
      (∀ emails : List (Option Str × (Nat → Outcome)),
        (mainLoop na nna emails).length = emails.length) := by
  intro na nna emailId outs
  refine ⟨?_, ?_, ?_, ?_, ?_, ?_, ?_⟩
  · rw [process_email_eq]
    exact min_le_right _ _
  · rw [process_email_eq]
  · rw [process_email_eq]
  · intro hlt
    have hne : ¬(leadingTransient outs = 3) := by omega
    constructor
    · intro hbj
      rw [process_email_eq]
      simp only [if_neg hne, hbj, terminalResult]
    · intro raw hresp
      constructor
      · intro hv
        rw [process_email_eq]
        simp only [if_neg hne, hresp, terminalResult, hv]
      · intro er hv
        rw [process_email_eq]
        simp only [if_neg hne, hresp, terminalResult, hv]
  · intro h3
    rw [process_email_eq]
    simp [h3]
  · intro rest hfail
    simp [mainLoop, hfail]
  · intro emails
    simp [mainLoop]

/-- Witness for C7: a malformed-body response aborts after one attempt with
no sleeps, and the batch turns it into the placeholder record. -/
theorem c7_witness :
    (process_email none [] [] (fun _ => Outcome.badJson)).1 = none ∧
    (process_email none [] [] (fun _ => Outcome.badJson)).2.1 = 1 ∧
    (process_email none [] [] (fun _ => Outcome.badJson)).2.2 = [] ∧
    mainLoop [] [] [(none, fun _ => Outcome.badJson)] = [placeholderRec none] := by
  obtain ⟨hA, hB, hC, hD, hE, hF, hG⟩ :=
    c7_retry_and_placeholder [] [] none (fun _ => Outcome.badJson)
  have hres : (process_email none [] [] (fun _ => Outcome.badJson)).1 = none :=
    (hD (by decide)).1 rfl
  refine ⟨hres, ?_, ?_, ?_⟩
  · rw [hB]
    decide
  · rw [hC]
    decide
  · have := hF [] hres
    simpa [mainLoop] using this

/-! ## Remaining concrete witnesses -/

/-- Witness for amended C1 at a concrete index with multiple candidates. -/
theorem c1_witness :
    find_port_code (str "Chennai") naC3w [] (some (str "IN")) =
      resolveAmendedC1 (str "Chennai") naC3w [] (some (str "IN")) :=
  c1_amended (str "Chennai") naC3w [] (some (str "IN"))

/-- Witness for C6: the record missing `id` is rejected, through the
characterization itself. -/
theorem c6_witness : validate rawNoId = none :=
  (c6_validator_errors.1 rawNoId).mpr (Or.inl rfl)

/-- Witness for C8 on a concrete slash-delimited name. -/
theorem c8_witness :
    normalize_port_name (normalize_port_name (str "Chennai ICD / Bangalore ICD")) =
      normalize_port_name (str "Chennai ICD / Bangalore ICD") :=
  c8_normalize_total_idempotent.2 (str "Chennai ICD / Bangalore ICD")
